import Mathlib

/-!
# Verification of the application-catalog layer (applications-rs)

A shallow embedding of the catalog reconciliation layer: the per-platform
enumerators (`get_all_apps` for the desktop-entry and shortcut platforms),
the per-platform watchers (`recv`, `unwatch`), and the macOS bundle helper
`MacAppPath::to_app`.

Modelling conventions:
* Filesystem paths are component lists (`Path := List String`); `p ++ [s]`
  is `p.join(s)`, `p.dropLast` is `p.parent()`.
* External format collaborators (the freedesktop parser, the `parselnk`
  crate, `plist`, `glob`, the registry and PowerShell sources) are modelled
  as record fields producing already-parsed structured values, exactly as
  the layer consumes them through their narrow interfaces.
* Fallible I/O is `Option`/`Except`: `none`/`.error` where the code gets an
  `Err` it propagates with `?`; a dedicated `RunResult` distinguishes a
  propagated error from a `panic!`/`expect` abort.
-/

namespace AppsRs

/-- Filesystem paths, as component lists. -/
abbrev Path := List String

/-- Split a character list at `.` characters; accumulator-based structural
recursion so that proofs and witnesses can evaluate it. -/
def splitDotsAux : List Char → List Char → List (List Char)
  | [], cur => [cur.reverse]
  | c :: rest, cur =>
    if c = '.' then cur.reverse :: splitDotsAux rest []
    else splitDotsAux rest (c :: cur)

/-- Split a string at `.` characters. -/
def splitDots (s : String) : List (List Char) :=
  splitDotsAux s.data []

/-- Rejoin dot-separated pieces. -/
def joinDots : List (List Char) → List Char
  | [] => []
  | [x] => x
  | x :: rest => x ++ '.' :: joinDots rest

/-- Rust `OsStr` extension extraction on one file-name component:
`None` when there is no embedded `.`, or when the name starts with `.`
and has no other `.`; otherwise the part after the final `.`. -/
def extOfName (name : String) : Option String :=
  match splitDots name with
  | [] => none
  | [_] => none
  | [[], _] => none
  | parts => parts.getLast?.map String.mk

/-- Rust `Path::extension()`. -/
def pathExt (p : Path) : Option String :=
  p.getLast?.bind extOfName

/-- Rust file-stem extraction on one file-name component. -/
def stemOfName (name : String) : Option String :=
  match splitDots name with
  | [] => none
  | [_] => some name
  | [[], _] => some name
  | parts => some (String.mk (joinDots parts.dropLast))

/-- Rust `Path::file_stem()`. -/
def pathStem (p : Path) : Option String :=
  p.getLast?.bind stemOfName

/-- ASCII model of `str::to_lowercase`. -/
def lowerStr (s : String) : String :=
  String.mk (s.data.map Char.toLower)

/-- ASCII model of `str::to_uppercase`. -/
def upperStr (s : String) : String :=
  String.mk (s.data.map Char.toUpper)

/-- Rust `str::trim_matches('%')`. -/
def trimPercents (s : String) : String :=
  String.mk (((s.data.dropWhile (· = '%')).reverse.dropWhile (· = '%')).reverse)

/-- Rust `str::starts_with`, over character lists. -/
def strStartsWith (s pre : String) : Bool :=
  pre.data.isPrefixOf s.data

/-- Drop the first `n` characters of a string. -/
def strDrop (s : String) (n : Nat) : String :=
  String.mk (s.data.drop n)

/-- The canonical `App` record (src/common.rs). `localized_app_names` is the
`BTreeMap`, kept as an association list. -/
structure App where
  name : String
  localized_app_names : List (String × String)
  icon_path : Option Path
  app_path_exe : Option Path
  app_desktop_path : Path
deriving DecidableEq

/-- The `Change` variant emitted by every watcher (src/watcher/mod.rs). -/
inductive Change where
  | AppInstalled (app_path : Path)
  | AppDeleted (app_path : Path)
deriving DecidableEq

/-- Outcome of running a fallible code path: distinguishes a propagated
`Err` (`?`) from a process abort (`panic!` / `expect` / `unwrap`). -/
inductive RunResult (α : Type) where
  | panicked
  | error
  | ok (value : α)
deriving DecidableEq

/-! ## Desktop-entry platform: the freedesktop parser collaborator -/

/-- `freedesktop_file_parser::EntryType`; the `Application` variant carries
the `exec` field consulted by `parse_desktop_file_content`. -/
inductive EntryType where
  | application (exec : Option String)
  | link
  | directory
deriving DecidableEq

/-- The `Icon` value of a parsed entry: the raw content plus the result of
`Icon::get_icon_path()` (which can be `None` even when the field exists). -/
structure DesktopIcon where
  content : String
  iconPath : Option Path
deriving DecidableEq

/-- The structured record returned by the external freedesktop parser. -/
structure DesktopEntry where
  entryType : EntryType
  noDisplay : Option Bool
  icon : Option DesktopIcon
  nameDefault : String
deriving DecidableEq

/-- `parse_desktop_file_content` (src/platforms/linux.rs): accepts the
parsed entry only when it is an `Application`, not `NoDisplay`, with an
`Exec` field and an `Icon` field; returns the default name and the icon
path. `parse` is the external freedesktop parser collaborator. -/
def parse_desktop_file_content (parse : String → Option DesktopEntry)
    (content : String) : Option (String × Option Path) :=
  match parse content with
  | none => none
  | some entry =>
    match entry.entryType with
    | EntryType.application exec? =>
      if entry.noDisplay.getD false then none
      else
        match exec? with
        | none => none
        | some _exec =>
          match entry.icon with
          | none => none
          | some icon => some (entry.nameDefault, icon.iconPath)
    | _ => none

/-- The acceptance rule in the spec's words (stated independently of the
source, for comparison): type is Application, no-display absent or false,
a launch command declared, an icon reference declared. -/
def spec_accepts_desktop_entry (parse : String → Option DesktopEntry)
    (content : String) : Bool :=
  match parse content with
  | none => false
  | some entry =>
    (match entry.entryType with
     | EntryType.application exec? => exec?.isSome
     | _ => false)
    && !(entry.noDisplay.getD false)
    && entry.icon.isSome

/-! ## Desktop-entry platform: enumerator -/

/-- One entry yielded by the `WalkDir` traversal of the search roots. -/
structure WalkEntry where
  path : Path
  isFile : Bool
deriving DecidableEq

/-- The inputs the Linux enumerator and watcher consume: the external
freedesktop parser, file reading (`none` = an I/O error the code would
propagate with `?`), and `metadata()?.is_file()` (`none` = metadata error). -/
structure LinuxFs where
  parse : String → Option DesktopEntry
  read : Path → Option String
  isFile : Path → Option Bool

/-- Outcome of the loop body of `get_all_apps` for one walk entry. -/
inductive EntryStep where
  | fail
  | skip
  | add (a : App)
deriving DecidableEq

/-- Loop body of `get_all_apps` (src/platforms/linux.rs) for one walk
entry: entries that are not `.desktop` files are skipped, a failing
`read_to_string` is propagated (`fail`), entries the parser rejects are
skipped, and an accepted entry contributes an `App` (the source omits
`localized_app_names`, leaving the default empty map). -/
def linuxEntryStep (fs : LinuxFs) (e : WalkEntry) : EntryStep :=
  match pathExt e.path with
  | none => EntryStep.skip
  | some ext =>
    if ext = "desktop" ∧ e.isFile = true then
      match fs.read e.path with
      | none => EntryStep.fail
      | some content =>
        match parse_desktop_file_content fs.parse content with
        | none => EntryStep.skip
        | some (app_name, opt_icon_path) =>
          EntryStep.add
            { name := app_name
              localized_app_names := []
              icon_path := opt_icon_path
              app_path_exe := none
              app_desktop_path := e.path }
    else EntryStep.skip

/-- The walk loop of `get_all_apps` (src/platforms/linux.rs): walk errors
(`none` entries) are skipped, a failing per-entry read aborts the whole
enumeration, and accepted apps are de-duplicated by full structural
equality (the `HashSet`). -/
def linuxGetAllAppsGo (fs : LinuxFs) :
    List (Option WalkEntry) → List App → Except Unit (List App)
  | [], acc => Except.ok acc
  | none :: rest, acc => linuxGetAllAppsGo fs rest acc
  | some e :: rest, acc =>
    match linuxEntryStep fs e with
    | EntryStep.fail => Except.error ()
    | EntryStep.skip => linuxGetAllAppsGo fs rest acc
    | EntryStep.add app =>
      linuxGetAllAppsGo fs rest (if app ∈ acc then acc else acc ++ [app])

/-- `get_all_apps` for the desktop-entry platform, over the walk listing of
the (existing) search roots. -/
def linux_get_all_apps (fs : LinuxFs) (entries : List (Option WalkEntry)) :
    Except Unit (List App) :=
  linuxGetAllAppsGo fs entries []

/-- The `App` a single walk entry contributes, if any. -/
def entryApp (fs : LinuxFs) (e : WalkEntry) : Option App :=
  match linuxEntryStep fs e with
  | EntryStep.add a => some a
  | _ => none

/-- A walk entry produces an accepted app located at `p`. -/
def producesAt (fs : LinuxFs) (p : Path) (oe : Option WalkEntry) : Bool :=
  match oe with
  | none => false
  | some e => decide (e.path = p) && (entryApp fs e).isSome

/-- A walk entry produces exactly the app `a`. -/
def producesApp (fs : LinuxFs) (oe : Option WalkEntry) (a : App) : Prop :=
  match oe with
  | none => False
  | some e => entryApp fs e = some a

/-! ## Desktop-entry platform: watcher (src/watcher/linux.rs) -/

/-- The inotify watcher state: the watch-descriptor → directory map. -/
structure LinuxWatcherState where
  search_paths : List (Nat × Path)
deriving DecidableEq

/-- One raw inotify event: watch descriptor, the mask bits the decoder
consults, and the optional entry name. -/
structure InotifyEvent where
  wd : Nat
  maskCreate : Bool
  maskMovedTo : Bool
  maskDelete : Bool
  maskMovedFrom : Bool
  name : Option String
deriving DecidableEq

/-- The `IN_DELETE`/`IN_MOVED_FROM` half of the `recv` loop body: a
matching name is emitted unconditionally as `AppDeleted`; `unwrap` on a
missing name panics. -/
def linux_delete_branch (search_path : Path) (ev : InotifyEvent) :
    RunResult (List Change) :=
  if ev.maskDelete || ev.maskMovedFrom then
    match ev.name with
    | none => RunResult.panicked
    | some fname =>
      if pathExt (search_path ++ [fname]) = some "desktop" then
        RunResult.ok [Change.AppDeleted (search_path ++ [fname])]
      else RunResult.ok []
  else RunResult.ok []

/-- Run the delete branch after the create branch contributed `inst`. -/
def linux_after_create (search_path : Path) (ev : InotifyEvent)
    (inst : List Change) : RunResult (List Change) :=
  match linux_delete_branch search_path ev with
  | RunResult.ok dels => RunResult.ok (inst ++ dels)
  | RunResult.error => RunResult.error
  | RunResult.panicked => RunResult.panicked

/-- Decode one inotify event (the loop body of `Watcher::recv`,
src/watcher/linux.rs). A create/rename-in event for a `.desktop` file is
re-read and re-parsed with `parse_desktop_file_content`; a rejected parse
or a missing icon path hits `continue` (which also skips the delete branch
for that event); `metadata()?` and `read_to_string()?` failures are
propagated errors; an event on an unknown descriptor or without a name
panics. -/
def linux_decode_event (fs : LinuxFs) (st : LinuxWatcherState)
    (ev : InotifyEvent) : RunResult (List Change) :=
  match List.lookup ev.wd st.search_paths with
  | none => RunResult.panicked
  | some search_path =>
    if ev.maskCreate || ev.maskMovedTo then
      match ev.name with
      | none => RunResult.panicked
      | some fname =>
        if pathExt (search_path ++ [fname]) = some "desktop" then
          match fs.isFile (search_path ++ [fname]) with
          | none => RunResult.error
          | some true =>
            match fs.read (search_path ++ [fname]) with
            | none => RunResult.error
            | some content =>
              match parse_desktop_file_content fs.parse content with
              | none => RunResult.ok []
              | some (_app_name, opt_icon_path) =>
                if opt_icon_path.isNone then RunResult.ok []
                else linux_after_create search_path ev
                  [Change.AppInstalled (search_path ++ [fname])]
          | some false => linux_after_create search_path ev []
        else linux_after_create search_path ev []
    else linux_after_create search_path ev []

/-- `Watcher::recv` on the desktop-entry platform: every event of the batch
returned by the blocking `read_events()` is decoded in order. -/
def linux_recv (fs : LinuxFs) (st : LinuxWatcherState) :
    List InotifyEvent → RunResult (List Change)
  | [] => RunResult.ok []
  | ev :: rest =>
    match linux_decode_event fs st ev with
    | RunResult.ok cs =>
      match linux_recv fs st rest with
      | RunResult.ok cs' => RunResult.ok (cs ++ cs')
      | RunResult.error => RunResult.error
      | RunResult.panicked => RunResult.panicked
    | RunResult.error => RunResult.error
    | RunResult.panicked => RunResult.panicked

/-- The watched directories of the inotify watcher. -/
def watchedPathsL (st : LinuxWatcherState) : List Path :=
  st.search_paths.map Prod.snd

/-- `Watcher::unwatch` (src/watcher/linux.rs): panics when the path is not
in the watched set, otherwise removes its descriptor mapping (removing the
OS watch on a valid descriptor is modelled as succeeding). -/
def linux_unwatch (st : LinuxWatcherState) (search_path : Path) :
    RunResult LinuxWatcherState :=
  match st.search_paths.find? (fun e => decide (e.2 = search_path)) with
  | none => RunResult.panicked
  | some (wd, _) =>
    RunResult.ok ⟨st.search_paths.filter (fun e => ! decide (e.1 = wd))⟩

/-! ## Shortcut platform: the parselnk collaborator and filesystem -/

/-- `parselnk::string_data` fields consulted by `parse_lnk2`. -/
structure LnkStringData where
  icon_location : Option Path
  relative_path : Option Path
  working_dir : Option Path
deriving DecidableEq

/-- `parselnk::link_info` fields consulted by `parse_lnk2`. -/
structure LnkLinkInfo where
  local_base_path : Option Path
deriving DecidableEq

/-- A parsed `.lnk` structure as returned by the external `parselnk`
collaborator. -/
structure Lnk where
  string_data : LnkStringData
  link_info : LnkLinkInfo
deriving DecidableEq

/-- The inputs the shortcut platform consumes: the external lnk parser,
existence checks, canonicalisation (`none` = error), environment variables
(values as component paths), `metadata()?.is_file()` and first-match glob
for icon lookups. -/
structure WinFs where
  tryFromLnk : Path → Option Lnk
  exists_ : Path → Bool
  canonicalize : Path → Option Path
  envVar : String → Option Path
  metadataIsFile : Path → Option Bool
  globFirstFile : Path → Option Path

/-- The fixed table of well-known `%VAR%` aliases. -/
def winEnvVarNames : List String :=
  ["%windir%", "%systemroot%", "%programfiles%", "%programfiles(x86)%",
   "%programdata%", "%userprofile%", "%appdata%", "%localappdata%",
   "%public%", "%systemdrive%"]

/-- Whether the textual form of a path starts with `%`. -/
def pathStartsWithPercent (p : Path) : Bool :=
  match p with
  | [] => false
  | c :: _ => strStartsWith c "%"

/-- `translate_path_alias` (src/platforms/windows.rs) at component
granularity: lower-case the path and, when its first component is a
well-known `%VAR%` alias whose environment value resolves, substitute the
value; otherwise return the path unchanged. -/
def translate_path_alias (fs : WinFs) (p : Path) : Path :=
  match p.map lowerStr with
  | [] => p
  | first :: rest =>
    match winEnvVarNames.find? (fun v => first == v) with
    | some v =>
      match fs.envVar (upperStr (trimPercents v)) with
      | some value => value ++ rest
      | none => p
    | none => p

/-- `strip_extended_prefix`: remove a leading `\\?\` marker. -/
def stripExtendedPfx (p : Path) : Path :=
  match p with
  | [] => []
  | c :: rest =>
    if strStartsWith c "\\\\?\\" then strDrop c 4 :: rest else p

/-- `parse_lnk2` (src/platforms/windows.rs): the full shortcut parse.  The
executable is the link-info base path, else the relative path, else an
icon ending in `.exe` (a non-`.exe` icon extension aborts); aliases are
expanded; the target must exist (directly or relative to the shortcut's
directory) and canonicalise; the result always carries
`app_path_exe = some …`. -/
def parse_lnk2 (fs : WinFs) (path : Path) : Option App :=
  match fs.tryFromLnk path with
  | none => none
  | some lnk =>
    let icon : Option Path := lnk.string_data.icon_location.map fun ic =>
      if pathStartsWithPercent ic then translate_path_alias fs ic else ic
    let exe0 : Option Path :=
      match lnk.link_info.local_base_path with
      | some p0 => some p0
      | none => lnk.string_data.relative_path
    let exe1 : Option Path :=
      if exe0.isNone then lnk.string_data.relative_path else exe0
    let exe2 : Option (Option Path) :=
      if exe1.isNone then
        match icon with
        | some icon_path =>
          match pathExt icon_path with
          | some ext =>
            if ext = "exe" then some (some (translate_path_alias fs icon_path))
            else none
          | none => some exe1
        | none => some exe1
      else some exe1
    match exe2 with
    | none => none
    | some none => none
    | some (some exe3) =>
      let app_exe_path := translate_path_alias fs exe3
      let exe_abs_path :=
        if fs.exists_ app_exe_path then app_exe_path
        else path.dropLast ++ app_exe_path
      if fs.exists_ exe_abs_path then
        match fs.canonicalize exe_abs_path with
        | none => none
        | some canon =>
          let exe_path := stripExtendedPfx canon
          let work_dir :=
            match lnk.string_data.working_dir with
            | some dir =>
              if pathStartsWithPercent dir then translate_path_alias fs dir
              else dir
            | none => exe_path.dropLast
          some { name := (pathStem path).getD ""
                 localized_app_names := []
                 icon_path := icon
                 app_path_exe := some exe_path
                 app_desktop_path := work_dir }
      else none

/-! ## Shortcut platform: watcher (src/watcher/windows.rs) -/

/-- The notify event kinds the decoder distinguishes. -/
inductive WinEventKind where
  | createFile
  | removeFile
  | other
deriving DecidableEq

/-- One raw notify event. -/
structure WinEvent where
  kind : WinEventKind
  paths : List Path
deriving DecidableEq

/-- The `Create(File)` loop of `recv`: each `.lnk` path is validated by a
full `parse_lnk2`; a `metadata()?` failure is a propagated error; a failed
parse contributes nothing. -/
def windows_decode_create (fs : WinFs) : List Path → Except Unit (List Change)
  | [] => Except.ok []
  | p :: rest =>
    if pathExt p = some "lnk" then
      match fs.metadataIsFile p with
      | none => Except.error ()
      | some true =>
        match windows_decode_create fs rest with
        | Except.ok cs =>
          Except.ok
            ((if (parse_lnk2 fs p).isSome then [Change.AppInstalled p] else [])
              ++ cs)
        | Except.error e => Except.error e
      | some false => windows_decode_create fs rest
    else windows_decode_create fs rest

/-- The `Remove(File)` loop of `recv`: `.lnk` paths are emitted as
`AppDeleted` unconditionally. -/
def windows_decode_remove (paths : List Path) : List Change :=
  paths.filterMap fun p =>
    if pathExt p = some "lnk" then some (Change.AppDeleted p) else none

/-- Decode one notify event (src/watcher/windows.rs). -/
def windows_decode_event (fs : WinFs) (ev : WinEvent) :
    Except Unit (List Change) :=
  match ev.kind with
  | WinEventKind.createFile => windows_decode_create fs ev.paths
  | WinEventKind.removeFile => Except.ok (windows_decode_remove ev.paths)
  | WinEventKind.other => Except.ok []

/-- `Watcher::recv` on the shortcut platform: one blocking `rx.recv()`
dequeues exactly one raw notify event; all other queued events stay
pending for later calls. `none` models the call still blocking because no
event has been delivered. -/
def windows_recv (fs : WinFs) :
    List WinEvent → Option (Except Unit (List Change) × List WinEvent)
  | [] => none
  | ev :: rest => some (windows_decode_event fs ev, rest)

/-- Model of the external notify collaborator's `unwatch`: removing a path
that is not currently watched returns a `WatchNotFound` error. -/
def notify_unwatch (watched : List Path) (p : Path) :
    Except Unit (List Path) :=
  if p ∈ watched then Except.ok (watched.erase p) else Except.error ()

/-- `Watcher::unwatch` on the shortcut platform: the notify result is
propagated with `?` as a returned error; nothing here can panic. -/
def windows_unwatch (watched : List Path) (p : Path) :
    RunResult (List Path) :=
  match notify_unwatch watched p with
  | Except.ok w => RunResult.ok w
  | Except.error _ => RunResult.error

/-! ## Shortcut platform: enumerator (src/platforms/windows.rs) -/

/-- One entry of the bounded-depth start-menu walk. -/
structure WinWalkEntry where
  path : Path
  isFile : Bool
deriving DecidableEq

/-- Source 1 of `get_all_apps`: walk entries that are `.lnk` files parsed
through `App::from_path` (= `parse_lnk2`); walk errors and failed parses
are skipped. -/
def lnk_walk_apps (fs : WinFs) (entries : List (Option WinWalkEntry)) :
    List App :=
  entries.filterMap fun oe =>
    oe.bind fun e =>
      if e.isFile then
        match pathExt e.path with
        | some ext => if ext = "lnk" then parse_lnk2 fs e.path else none
        | none => none
      else none

/-- `if let Ok(apps) = source() { … }`: a failing source contributes
nothing. -/
def exceptApps : Except Unit (List App) → List App
  | Except.ok l => l
  | Except.error _ => []

/-- The shared `seen_paths` de-duplication loop of `get_all_apps`: an app
is pushed only when it has a resolved executable path that has not been
seen yet; the first occurrence wins. -/
def merge_by_exe (seen : List Path) : List App → List App
  | [] => []
  | app :: rest =>
    match app.app_path_exe with
    | none => merge_by_exe seen rest
    | some p =>
      if p ∈ seen then merge_by_exe seen rest
      else app :: merge_by_exe (p :: seen) rest

/-- The final `sort_by` comparator: case-insensitive display name. -/
def byNameLeB (a b : App) : Bool :=
  decide (lowerStr a.name ≤ lowerStr b.name)

/-- `get_all_apps` (src/platforms/windows.rs): the four sources in order —
start-menu walk, registry app paths, PATH executables, store packages —
merged through the `seen_paths` de-duplication and finally sorted
case-insensitively by name (a stable sort, as `sort_by`). -/
def windows_get_all_apps (fs : WinFs) (walkEntries : List (Option WinWalkEntry))
    (registry pathEnv uwp : Except Unit (List App)) : List App :=
  List.mergeSort
    (merge_by_exe []
      (lnk_walk_apps fs walkEntries ++ exceptApps registry
        ++ exceptApps pathEnv ++ exceptApps uwp))
    byNameLeB

/-- One record of the parsed PowerShell `Get-AppxPackage` JSON output. -/
structure UwpRecord where
  name : Option String
  appUserModelId : Option String
  installLocation : Option Path
deriving DecidableEq

/-- The icon glob patterns of `find_uwp_icon`. -/
def uwpIconPatterns : List Path :=
  [["Assets", "*.png"], ["Assets", "*.ico"], ["*.png"], ["Images", "*.png"],
   ["Assets", "Square44x44Logo.png"], ["Assets", "Square150x150Logo.png"],
   ["Assets", "Logo.png"]]

/-- `find_uwp_icon` (src/platforms/windows.rs): first glob match among the
fixed patterns, `none` when the install path does not exist. -/
def find_uwp_icon (fs : WinFs) (install_path : Path) : Option Path :=
  if fs.exists_ install_path then
    uwpIconPatterns.findSome? fun pat => fs.globFirstFile (install_path ++ pat)
  else none

/-- `get_uwp_apps_powershell` (src/platforms/windows.rs): every produced
store-package App is constructed with `app_path_exe = None`. -/
def get_uwp_apps (fs : WinFs) (records : List UwpRecord) : List App :=
  records.filterMap fun r =>
    match r.name, r.appUserModelId with
    | some n, some _ =>
      some { name := n
             localized_app_names := []
             icon_path := find_uwp_icon fs (r.installLocation.getD [])
             app_path_exe := none
             app_desktop_path := r.installLocation.getD [] }
    | _, _ => none

/-! ## Bundle platform: watcher (src/watcher/macos.rs) -/

/-- One entry of a `read_dir` listing. -/
structure DirEntry where
  path : Path
  isDir : Bool
deriving DecidableEq

/-- `get_current_apps` (src/watcher/macos.rs): the immediate `.app`
directory entries, collected into a set (the `HashSet` is modelled as a
deduplicated list; only membership is ever consulted). -/
def get_current_apps (entries : List DirEntry) : List Path :=
  (entries.filterMap fun e =>
    if e.isDir = true ∧ pathExt e.path = some "app" then some e.path
    else none).dedup

/-- The kqueue watcher state: descriptor → directory and the per-directory
snapshot of previously seen bundle entries. -/
structure MacWatcherState where
  search_paths : List (Nat × Path)
  prev_app_list : List (Nat × List Path)
deriving DecidableEq

/-- One raw kevent, together with the `read_dir` listing of the affected
directory at processing time (reading the directory is assumed to
succeed; a failure would be a propagated error, which no claim
exercises). -/
structure MacKEvent where
  fd : Nat
  fflagsWrite : Bool
  dirEntries : List DirEntry
deriving DecidableEq

/-- Replace the snapshot stored for descriptor `fd`. -/
def setPrev : List (Nat × List Path) → Nat → List Path →
    List (Nat × List Path)
  | [], _, _ => []
  | e :: rest, fd, v =>
    (if e.1 = fd then (e.1, v) else e) :: setPrev rest fd v

/-- The event loop of `Watcher::recv` (src/watcher/macos.rs): for each
`NOTE_WRITE` event the directory is re-listed, compared against the stored
snapshot (deletions first, then installs), and the snapshot replaced.
`none` models the `expect` panic on an event for an unwatched
descriptor. -/
def macos_process : MacWatcherState → List MacKEvent →
    Option (List Change × MacWatcherState)
  | st, [] => some ([], st)
  | st, ev :: rest =>
    match List.lookup ev.fd st.search_paths with
    | none => none
    | some _search_path =>
      if ev.fflagsWrite then
        match List.lookup ev.fd st.prev_app_list with
        | none => none
        | some prev =>
          let current := get_current_apps ev.dirEntries
          let dels := (prev.filter fun p => decide (p ∉ current)).map
            Change.AppDeleted
          let adds := (current.filter fun p => decide (p ∉ prev)).map
            Change.AppInstalled
          let st' : MacWatcherState :=
            { st with prev_app_list := setPrev st.prev_app_list ev.fd current }
          match macos_process st' rest with
          | none => none
          | some (cs, stf) => some (dels ++ adds ++ cs, stf)
      else
        match macos_process st rest with
        | none => none
        | some (cs, stf) => some (cs, stf)

/-- `Watcher::recv` on the bundle platform: an empty watched set returns an
empty batch immediately; otherwise the delivered kevent batch is
processed. -/
def macos_recv (st : MacWatcherState) (kevents : List MacKEvent) :
    Option (List Change × MacWatcherState) :=
  if st.search_paths.isEmpty then some ([], st)
  else macos_process st kevents

/-- `Watcher::unwatch` (src/watcher/macos.rs): panics when the path is not
watched (and when the snapshot map is missing the descriptor); otherwise
removes both mappings (deleting the kevent registration of a valid
descriptor is modelled as succeeding). -/
def macos_unwatch (st : MacWatcherState) (search_path : Path) :
    RunResult MacWatcherState :=
  match st.search_paths.find? (fun e => decide (e.2 = search_path)) with
  | none => RunResult.panicked
  | some (fd, _) =>
    match List.lookup fd st.prev_app_list with
    | none => RunResult.panicked
    | some _ =>
      RunResult.ok
        { search_paths := st.search_paths.filter fun e => ! decide (e.1 = fd)
          prev_app_list := st.prev_app_list.filter fun e => ! decide (e.1 = fd) }

/-! ## Bundle platform: `MacAppPath` (src/utils/mac.rs) -/

/-- `CFBundlePrimaryIcon` of a parsed `Info.plist`. -/
structure CFBundlePrimaryIcon where
  cf_bundle_icon_name : Option String
  cf_bundle_icon_files : Option (List String)
deriving DecidableEq

/-- `CFBundleIcons` of a parsed `Info.plist`. -/
structure CFBundleIcons where
  cf_bundle_primary_icon : Option CFBundlePrimaryIcon
deriving DecidableEq

/-- The fields of a parsed `Info.plist` that `to_app` and
`find_icon_path` consult (purely informational version/identifier strings
are omitted). -/
structure InfoPlist where
  cf_bundle_icon_file : Option String
  cf_bundle_icons : Option CFBundleIcons
  cf_bundle_icons_ipad : Option CFBundleIcons
  cf_bundle_executable : Option String
  cf_bundle_icon_name : Option String
  cf_bundle_name : Option String
  cf_bundle_display_name : Option String
deriving DecidableEq

/-- The inputs the bundle platform consumes: existence checks, the
`plist` collaborator (`InfoPlist::from_file`; `none` = parse failure),
first-match globs, and the localized-name scan of §4.2 (a self-contained
reader of `InfoPlist.loctable`/`.lproj` files, consumed here only as a
map). -/
structure MacFs where
  exists_ : Path → Bool
  plistParse : Path → Option InfoPlist
  globFirstApp : Path → Option Path
  globFirstIcns : Path → Option Path
  globFirstPng : Path → String → Option Path
  localizedNames : Path → List (String × String)

/-- `MacAppPath::get_wrapper_path`. -/
def get_wrapper_path (fs : MacFs) (p : Path) : Option Path :=
  if fs.exists_ (p ++ ["Wrapper"]) then some (p ++ ["Wrapper"]) else none

/-- `MacAppPath::has_wrapper`. -/
def has_wrapper (fs : MacFs) (p : Path) : Bool :=
  (get_wrapper_path fs p).isSome

/-- `MacAppPath::get_app_path_in_wrapper`: first `*.app` glob match. -/
def get_app_path_in_wrapper (fs : MacFs) (p : Path) : Option Path :=
  (get_wrapper_path fs p).bind fun w => fs.globFirstApp w

/-- `MacAppPath::get_info_plist_path`. -/
def get_info_plist_path (fs : MacFs) (p : Path) : Option Path :=
  if has_wrapper fs p then
    (get_app_path_in_wrapper fs p).bind fun inner =>
      if fs.exists_ (inner ++ ["Info.plist"]) then some (inner ++ ["Info.plist"])
      else none
  else
    if fs.exists_ (p ++ ["Contents", "Info.plist"]) then
      some (p ++ ["Contents", "Info.plist"])
    else none

/-- `MacAppPath::has_info_plist`. -/
def has_info_plist (fs : MacFs) (p : Path) : Bool :=
  (get_info_plist_path fs p).isSome

/-- `MacAppPath::is_app`: a wrapper bundle needs an `Info.plist`; a
standard bundle needs both an `Info.plist` and a Resources directory. -/
def is_app (fs : MacFs) (p : Path) : Bool :=
  if !fs.exists_ p then false
  else if has_wrapper fs p then has_info_plist fs p
  else has_info_plist fs p && fs.exists_ (p ++ ["Contents", "Resources"])

/-- Rust `str::ends_with`, over character lists. -/
def strEndsWith (s suf : String) : Bool :=
  suf.data.isSuffixOf s.data

/-- First of `names` that exists under `root`. -/
def findExisting (fs : MacFs) (root : Path) (names : List String) :
    Option Path :=
  names.findSome? fun n =>
    if fs.exists_ (root ++ [n]) then some (root ++ [n]) else none

/-- The resolution-suffixed file patterns tried for one iOS icon name. -/
def iosIconPatterns (base : String) : List String :=
  [base ++ ".png", base ++ "@2x.png", base ++ "@3x.png"]

/-- The file patterns tried for one iPad icon name. -/
def ipadIconPatterns (base : String) : List String :=
  [base ++ ".png", base ++ "@2x.png"]

/-- The fixed list of common iOS icon file names. -/
def commonIosIcons : List String :=
  ["AppIcon60x60@2x.png", "AppIcon60x60@3x.png", "AppIcon76x76@2x~ipad.png",
   "AppIcon83.5x83.5@2x~ipad.png", "AppIcon29x29@2x.png",
   "AppIcon40x40@2x.png", "AppIcon57x57@2x.png", "AppIcon72x72@2x~ipad.png"]

/-- Icon search through one `CFBundleIcons` dictionary. -/
def iconsDictSearch (fs : MacFs) (app_root : Path) (icons : Option CFBundleIcons)
    (patterns : String → List String) : Option Path :=
  icons.bind fun ic =>
    ic.cf_bundle_primary_icon.bind fun primary =>
      primary.cf_bundle_icon_files.bind fun files =>
        files.findSome? fun icon_file =>
          findExisting fs app_root (patterns icon_file)

/-- `MacAppPath::find_icon_path` (src/utils/mac.rs): the ordered strategy
list, first match wins. -/
def find_icon_path (fs : MacFs) (info : InfoPlist) (resources_path : Path)
    (is_ios_app : Bool) : Option Path :=
  if is_ios_app then
    let app_root := resources_path
    iconsDictSearch fs app_root info.cf_bundle_icons iosIconPatterns
    <|> iconsDictSearch fs app_root info.cf_bundle_icons_ipad ipadIconPatterns
    <|> findExisting fs app_root commonIosIcons
    <|> (if fs.exists_ (app_root ++ ["Assets.car"]) then
          some (app_root ++ ["Assets.car"]) else none)
    <|> fs.globFirstPng app_root "AppIcon"
    <|> fs.globFirstPng app_root "Icon"
  else
    (info.cf_bundle_icon_file.bind fun icon_file_name =>
      let nm := if strEndsWith icon_file_name ".icns" then icon_file_name
        else icon_file_name ++ ".icns"
      if fs.exists_ (resources_path ++ [nm]) then some (resources_path ++ [nm])
      else none)
    <|> (info.cf_bundle_icon_name.bind fun icon_name =>
      if fs.exists_ (resources_path ++ [icon_name ++ ".icns"]) then
        some (resources_path ++ [icon_name ++ ".icns"])
      else none)
    <|> findExisting fs resources_path
        ["AppIcon.icns", "app.icns", "icon.icns", "application.icns"]
    <|> fs.globFirstIcns resources_path
    <|> (if fs.exists_ (resources_path ++ ["Assets.car"]) then
          some (resources_path ++ ["Assets.car"]) else none)

/-- `MacAppPath::to_app` (src/utils/mac.rs): validate the bundle, parse its
`Info.plist`, pick the name by display name > bundle name > directory
stem, resolve the executable (wrapper bundles through the inner app;
standard bundles through `Contents/MacOS` with an existence check) and the
icon. -/
def to_app (fs : MacFs) (p : Path) : Option App :=
  if !is_app fs p then none
  else
    match get_info_plist_path fs p with
    | none => none
    | some info_plist_path =>
      match fs.plistParse info_plist_path with
      | none => none
      | some info_plist =>
        let name? : Option String :=
          match info_plist.cf_bundle_display_name with
          | some display_name => some display_name
          | none =>
            match info_plist.cf_bundle_name with
            | some nm => some nm
            | none => pathStem p
        match name? with
        | none => none
        | some name =>
          let is_ios_app := has_wrapper fs p
          match (if is_ios_app then
              match get_app_path_in_wrapper fs p with
              | none => none
              | some inner_app_path =>
                match info_plist.cf_bundle_executable with
                | none => none
                | some executable =>
                  some (inner_app_path, some (inner_app_path ++ [executable]))
            else
              let contents_path := p ++ ["Contents"]
              let resources_path := contents_path ++ ["Resources"]
              let macos_path := contents_path ++ ["MacOS"]
              let app_path_exe :=
                match info_plist.cf_bundle_executable with
                | some executable =>
                  if fs.exists_ (macos_path ++ [executable]) then
                    some (macos_path ++ [executable])
                  else none
                | none => none
              some (resources_path, app_path_exe)) with
          | none => none
          | some (resources_path, app_path_exe) =>
            some { name := name
                   localized_app_names := fs.localizedNames p
                   icon_path := find_icon_path fs info_plist resources_path
                     is_ios_app
                   app_path_exe := app_path_exe
                   app_desktop_path := p }

/-- The three-level name priority in the spec's words (stated
independently of the source, for comparison): embedded display name, else
embedded short name, else the directory stem. -/
def spec_mac_name (info : InfoPlist) (stem : Option String) : Option String :=
  match info.cf_bundle_display_name with
  | some d => some d
  | none =>
    match info.cf_bundle_name with
    | some n => some n
    | none => stem

/-! ## Auxiliary specification-side definitions -/

/-- Sequential composition of two `recv`-loop outcomes: the batches
concatenate; a panic or error cuts the run short. -/
def runAppend : RunResult (List Change) → RunResult (List Change) →
    RunResult (List Change)
  | RunResult.ok cs, RunResult.ok cs' => RunResult.ok (cs ++ cs')
  | RunResult.ok _, RunResult.error => RunResult.error
  | RunResult.ok _, RunResult.panicked => RunResult.panicked
  | RunResult.error, _ => RunResult.error
  | RunResult.panicked, _ => RunResult.panicked

/-- `a` occurs in `l` at a position such that no earlier element (nor
`seen`) already claims its executable path: the element the first-wins
de-duplication keeps. -/
def firstOccFrom (seen : List Path) (l : List App) (a : App) : Prop :=
  ∃ pre post, l = pre ++ a :: post ∧
    (∃ p, a.app_path_exe = some p ∧ p ∉ seen) ∧
    ∀ b ∈ pre, b.app_path_exe ≠ a.app_path_exe

/-! ## Concrete sample inputs used by witnesses and counterexamples -/

/-- A sample parsed desktop entry accepted by the enumeration rule. -/
def sampleEntry : DesktopEntry :=
  { entryType := EntryType.application (some "run")
    noDisplay := none
    icon := some { content := "ic", iconPath := some ["usr", "ic.png"] }
    nameDefault := "Sample" }

/-- A sample filesystem in which every file parses to `sampleEntry`. -/
def sampleFs : LinuxFs :=
  { parse := fun _ => some sampleEntry
    read := fun _ => some "content"
    isFile := fun _ => some true }

/-- The app `sampleFs` yields for `apps/a.desktop`. -/
def sampleApp : App :=
  { name := "Sample"
    localized_app_names := []
    icon_path := some ["usr", "ic.png"]
    app_path_exe := none
    app_desktop_path := ["apps", "a.desktop"] }

/-- A desktop entry with the icon field missing (rejected). -/
def sampleEntryNoIcon : DesktopEntry :=
  { entryType := EntryType.application (some "run")
    noDisplay := none
    icon := none
    nameDefault := "Sample" }

/-- A filesystem whose descriptors all lack the icon field. -/
def sampleFsNoIcon : LinuxFs :=
  { parse := fun _ => some sampleEntryNoIcon
    read := fun _ => some "content"
    isFile := fun _ => some true }

/-- A filesystem in which reading any file fails with an I/O error. -/
def badReadFs : LinuxFs :=
  { parse := fun _ => some sampleEntry
    read := fun _ => none
    isFile := fun _ => some true }

/-- An inotify watcher watching `apps` under descriptor 1. -/
def sampleLinuxWatcher : LinuxWatcherState :=
  ⟨[(1, ["apps"])]⟩

/-- A create event for `a.desktop` in the watched directory. -/
def sampleInotifyCreate : InotifyEvent :=
  { wd := 1
    maskCreate := true
    maskMovedTo := false
    maskDelete := false
    maskMovedFrom := false
    name := some "a.desktop" }

/-- A parsed shortcut whose link info carries an absolute base path. -/
def sampleLnk : Lnk :=
  { string_data :=
      { icon_location := none, relative_path := none, working_dir := none }
    link_info := { local_base_path := some ["C:", "app.exe"] } }

/-- A shortcut-platform filesystem on which `sampleLnk` resolves. -/
def sampleWinFs : WinFs :=
  { tryFromLnk := fun _ => some sampleLnk
    exists_ := fun _ => true
    canonicalize := fun p => some p
    envVar := fun _ => none
    metadataIsFile := fun _ => some true
    globFirstFile := fun _ => none }

/-- A shortcut-platform filesystem on which every lnk parse fails. -/
def sampleWinFsBadLnk : WinFs :=
  { sampleWinFs with tryFromLnk := fun _ => none }

/-- A notify event carrying no decodable change. -/
def evOther : WinEvent :=
  { kind := WinEventKind.other, paths := [] }

/-- Two apps sharing one executable path, differing in name. -/
def appA : App :=
  { name := "A"
    localized_app_names := []
    icon_path := none
    app_path_exe := some ["p.exe"]
    app_desktop_path := ["d"] }

/-- See `appA`. -/
def appB : App :=
  { name := "B"
    localized_app_names := []
    icon_path := none
    app_path_exe := some ["p.exe"]
    app_desktop_path := ["d"] }

/-- A kqueue watcher watching `Apps` under descriptor 1, with one
previously seen bundle. -/
def sampleMacState : MacWatcherState :=
  { search_paths := [(1, ["Apps"])]
    prev_app_list := [(1, [["Apps", "Old.app"]])] }

/-- A directory listing now holding one (different) bundle. -/
def sampleDirEntries : List DirEntry :=
  [⟨["Apps", "New.app"], true⟩]

/-- A sample store-package record. -/
def sampleUwpRecord : UwpRecord :=
  { name := some "Store"
    appUserModelId := some "StoreApp"
    installLocation := some ["store"] }

/-- A parsed Info.plist carrying both name fields. -/
def sampleInfoPlist : InfoPlist :=
  { cf_bundle_icon_file := none
    cf_bundle_icons := none
    cf_bundle_icons_ipad := none
    cf_bundle_executable := none
    cf_bundle_icon_name := none
    cf_bundle_name := some "Short"
    cf_bundle_display_name := some "Display" }

/-- A bundle filesystem holding exactly one standard bundle
`Apps/Finder.app`. -/
def sampleMacFs : MacFs :=
  { exists_ := fun p =>
      decide (p = ["Apps", "Finder.app"])
      || decide (p = ["Apps", "Finder.app", "Contents", "Info.plist"])
      || decide (p = ["Apps", "Finder.app", "Contents", "Resources"])
    plistParse := fun _ => some sampleInfoPlist
    globFirstApp := fun _ => none
    globFirstIcns := fun _ => none
    globFirstPng := fun _ _ => none
    localizedNames := fun _ => [] }

theorem linuxEntryStep_add (fs : LinuxFs) (e : WalkEntry) (a : App)
    (h : linuxEntryStep fs e = EntryStep.add a) :
    a.app_desktop_path = e.path ∧ a.app_path_exe = none ∧
      pathExt e.path = some "desktop" ∧ e.isFile = true ∧
      ∃ content, fs.read e.path = some content ∧
        parse_desktop_file_content fs.parse content =
          some (a.name, a.icon_path) := by
  unfold linuxEntryStep at h
  split at h
  · exact absurd h (by simp)
  · rename_i ext hext
    split at h
    · rename_i hc
      split at h
      · exact absurd h (by simp)
      · rename_i content hread
        split at h
        · exact absurd h (by simp)
        · rename_i app_name opt_icon_path hparse
          cases h
          refine ⟨rfl, rfl, ?_, hc.2, content, hread, hparse⟩
          rw [hext, hc.1]
    · exact absurd h (by simp)

theorem linuxGo_ok_mem (fs : LinuxFs) (entries : List (Option WalkEntry)) :
    ∀ (acc apps : List App), linuxGetAllAppsGo fs entries acc = Except.ok apps →
      ∀ a : App, (a ∈ apps ↔ a ∈ acc ∨ ∃ oe ∈ entries, producesApp fs oe a) := by
  induction entries with
  | nil =>
    intro acc apps h a
    simp only [linuxGetAllAppsGo] at h
    cases h
    simp
  | cons oe rest ih =>
    intro acc apps h a
    have hsplit : (∃ x ∈ (oe :: rest), producesApp fs x a) ↔
        (producesApp fs oe a ∨ ∃ x ∈ rest, producesApp fs x a) := by
      simp
    rw [hsplit]
    cases oe with
    | none =>
      simp only [linuxGetAllAppsGo] at h
      rw [ih acc apps h a]
      simp [producesApp]
    | some e =>
      simp only [linuxGetAllAppsGo] at h
      cases hstep : linuxEntryStep fs e with
      | fail =>
        rw [hstep] at h
        exact absurd h (by simp)
      | skip =>
        rw [hstep] at h
        rw [ih acc apps h a]
        have hno : ¬ producesApp fs (some e) a := by
          simp [producesApp, entryApp, hstep]
        simp [hno]
      | add app =>
        rw [hstep] at h
        rw [ih _ apps h a]
        have hprod : producesApp fs (some e) a ↔ a = app := by
          simp only [producesApp, entryApp, hstep, Option.some.injEq]
          exact eq_comm
        have hacc : a ∈ (if app ∈ acc then acc else acc ++ [app]) ↔
            (a ∈ acc ∨ a = app) := by
          by_cases hin : app ∈ acc
          · rw [if_pos hin]
            constructor
            · exact Or.inl
            · rintro (hm | hm)
              · exact hm
              · rw [hm]
                exact hin
          · rw [if_neg hin]
            simp
        rw [hacc, hprod]
        tauto

theorem bool_eq_of_iff {a b : Bool} (h : a = true ↔ b = true) : a = b := by
  cases a <;> cases b <;> simp_all

theorem entryApp_eq_some (fs : LinuxFs) (e : WalkEntry) (a : App) :
    entryApp fs e = some a ↔ linuxEntryStep fs e = EntryStep.add a := by
  unfold entryApp
  cases hstep : linuxEntryStep fs e <;> simp

/-- C2: on the desktop-entry platform, `enumerate` accepts a descriptor
file iff its entry type is Application, its no-display flag is absent or
false, it declares a launch command and it declares an icon reference; a
descriptor failing this rule (or marked no-display) contributes no App to
the result. -/
theorem desktop_acceptance_rule (fs : LinuxFs) (entries : List (Option WalkEntry))
    (apps : List App) (p : Path) (c : String)
    (h : linux_get_all_apps fs entries = Except.ok apps) :
    (apps.any fun a => decide (a.app_desktop_path = p)) = entries.any (producesAt fs p)
    ∧ (parse_desktop_file_content fs.parse c).isSome =
      spec_accepts_desktop_entry fs.parse c := by
  constructor
  · apply bool_eq_of_iff
    rw [List.any_eq_true, List.any_eq_true]
    constructor
    · rintro ⟨a, ha, hpa⟩
      rcases (linuxGo_ok_mem fs entries [] apps h a).mp ha with h0 | ⟨oe, hoe, hprod⟩
      · simp at h0
      · refine ⟨oe, hoe, ?_⟩
        cases oe with
        | none => exact absurd hprod (by simp [producesApp])
        | some e =>
          have hadd : linuxEntryStep fs e = EntryStep.add a :=
            (entryApp_eq_some fs e a).mp hprod
          have hfields := linuxEntryStep_add fs e a hadd
          have hep : e.path = p := by
            rw [← hfields.1]
            exact of_decide_eq_true hpa
          have hsome : entryApp fs e = some a := hprod
          simp [producesAt, hep, hsome]
    · rintro ⟨oe, hoe, hP⟩
      cases oe with
      | none => exact absurd hP (by simp [producesAt])
      | some e =>
        simp only [producesAt, Bool.and_eq_true, decide_eq_true_eq,
          Option.isSome_iff_exists] at hP
        rcases hP with ⟨hep, a, ha⟩
        refine ⟨a, ?_, ?_⟩
        · exact (linuxGo_ok_mem fs entries [] apps h a).mpr
            (Or.inr ⟨some e, hoe, ha⟩)
        · have hadd := (entryApp_eq_some fs e a).mp ha
          have hfields := linuxEntryStep_add fs e a hadd
          rw [hfields.1, hep]
          simp
  · unfold parse_desktop_file_content spec_accepts_desktop_entry
    cases hpc : fs.parse c with
    | none => rfl
    | some entry =>
      obtain ⟨et, nd, ic, nm⟩ := entry
      cases et with
      | application ex =>
        cases hnd : nd.getD false <;> cases ex <;> cases ic <;> simp [hnd]
      | link => simp
      | directory => simp

theorem desktop_acceptance_rule_witness :
    (([sampleApp].any fun a =>
        decide (a.app_desktop_path = (["apps", "a.desktop"] : Path))) =
      [some ⟨["apps", "a.desktop"], true⟩].any
        (producesAt sampleFs ["apps", "a.desktop"]))
    ∧ (parse_desktop_file_content sampleFs.parse "c").isSome =
      spec_accepts_desktop_entry sampleFs.parse "c" :=
  desktop_acceptance_rule sampleFs [some ⟨["apps", "a.desktop"], true⟩]
    [sampleApp] ["apps", "a.desktop"] "c" rfl

/-- C9: every App produced by the desktop-entry enumerator has
`app_path_exe = None`: the launch command is required for acceptance but
never populates the executable-path field. -/
theorem desktop_enumerate_exe_none (fs : LinuxFs)
    (entries : List (Option WalkEntry)) (apps : List App)
    (h : linux_get_all_apps fs entries = Except.ok apps) :
    apps.all (fun a => a.app_path_exe.isNone) = true := by
  rw [List.all_eq_true]
  intro a ha
  rcases (linuxGo_ok_mem fs entries [] apps h a).mp ha with h0 | ⟨oe, hoe, hprod⟩
  · simp at h0
  · cases oe with
    | none => exact absurd hprod (by simp [producesApp])
    | some e =>
      have hadd := (entryApp_eq_some fs e a).mp hprod
      have hfields := linuxEntryStep_add fs e a hadd
      simp [hfields.2.1]

theorem desktop_enumerate_exe_none_witness :
    ([sampleApp].all (fun a => a.app_path_exe.isNone)) = true :=
  desktop_enumerate_exe_none sampleFs [some ⟨["apps", "a.desktop"], true⟩]
    [sampleApp] rfl

theorem linux_delete_branch_no_install (sp : Path) (ev : InotifyEvent)
    (cs : List Change) (p : Path)
    (h : linux_delete_branch sp ev = RunResult.ok cs) :
    Change.AppInstalled p ∉ cs := by
  unfold linux_delete_branch at h
  split at h
  · split at h
    · exact absurd h (by simp)
    · split at h
      · cases h
        simp
      · cases h
        simp
  · cases h
    simp

theorem linux_after_create_install_mem (sp : Path) (ev : InotifyEvent)
    (inst cs : List Change) (p : Path)
    (h : linux_after_create sp ev inst = RunResult.ok cs)
    (hm : Change.AppInstalled p ∈ cs) : Change.AppInstalled p ∈ inst := by
  unfold linux_after_create at h
  cases hdel : linux_delete_branch sp ev with
  | ok dels =>
    rw [hdel] at h
    have h' : RunResult.ok (inst ++ dels) = RunResult.ok cs := h
    cases h'
    rcases List.mem_append.mp hm with hi | hd
    · exact hi
    · exact absurd hd (linux_delete_branch_no_install sp ev dels p hdel)
  | error =>
    rw [hdel] at h
    exact absurd h (by simp)
  | panicked =>
    rw [hdel] at h
    exact absurd h (by simp)

theorem windows_decode_create_mem (fs : WinFs) :
    ∀ (paths : List Path) (cs : List Change) (p : Path),
      windows_decode_create fs paths = Except.ok cs →
      Change.AppInstalled p ∈ cs →
      pathExt p = some "lnk" ∧ fs.metadataIsFile p = some true ∧
        (parse_lnk2 fs p).isSome = true := by
  intro paths
  induction paths with
  | nil =>
    intro cs p h hm
    unfold windows_decode_create at h
    cases h
    simp at hm
  | cons q rest ih =>
    intro cs p h hm
    unfold windows_decode_create at h
    split at h
    · rename_i hextq
      split at h
      · exact absurd h (by simp)
      · rename_i hmeta
        cases hrec : windows_decode_create fs rest with
        | ok cs' =>
          rw [hrec] at h
          have h' : Except.ok
              ((if (parse_lnk2 fs q).isSome then [Change.AppInstalled q]
                else []) ++ cs') = Except.ok cs := h
          cases h'
          rcases List.mem_append.mp hm with hi | hrest
          · by_cases hps : (parse_lnk2 fs q).isSome
            · rw [if_pos hps] at hi
              have hpq : p = q := by
                cases List.mem_singleton.mp hi
                rfl
              subst hpq
              exact ⟨hextq, hmeta, by simpa using hps⟩
            · rw [if_neg hps] at hi
              simp at hi
          · exact ih cs' p hrec hrest
        | error e =>
          rw [hrec] at h
          exact absurd h (by simp)
      · exact ih cs p h hm
    · exact ih cs p h hm

theorem windows_decode_remove_no_install (paths : List Path) (p : Path) :
    Change.AppInstalled p ∉ windows_decode_remove paths := by
  intro hm
  rcases List.mem_filterMap.mp hm with ⟨q, _, hq⟩
  by_cases hext : pathExt q = some "lnk"
  · rw [if_pos hext] at hq
    cases hq
  · rw [if_neg hext] at hq
    cases hq

/-- C1: every `AppInstalled` emitted by a watcher batch refers to a
descriptor that validates at emission time.  On the desktop-entry
platform the create/rename-in event's file is re-read and re-parsed with
the enumeration's own `parse_desktop_file_content` and must yield a
present icon path; an event whose content fails that validation yields
`ok []` (dropped, not an error).  On the shortcut platform an
`AppInstalled` is emitted only when the full `parse_lnk2` shortcut parse
succeeds, and a failed parse contributes nothing (no error). -/
theorem installed_changes_validated :
    (∀ (fs : LinuxFs) (st : LinuxWatcherState) (ev : InotifyEvent)
       (cs : List Change) (p : Path),
       linux_decode_event fs st ev = RunResult.ok cs →
       Change.AppInstalled p ∈ cs →
       pathExt p = some "desktop" ∧ fs.isFile p = some true ∧
         ∃ content nm icon, fs.read p = some content ∧
           parse_desktop_file_content fs.parse content = some (nm, some icon))
    ∧ (∀ (fs : LinuxFs) (st : LinuxWatcherState) (ev : InotifyEvent)
        (sp : Path) (f : String) (content : String),
        List.lookup ev.wd st.search_paths = some sp →
        ev.name = some f →
        fs.isFile (sp ++ [f]) = some true →
        fs.read (sp ++ [f]) = some content →
        (∀ nm icon, parse_desktop_file_content fs.parse content ≠
          some (nm, some icon)) →
        ev.maskDelete = false → ev.maskMovedFrom = false →
        linux_decode_event fs st ev = RunResult.ok [])
    ∧ (∀ (fs : WinFs) (ev : WinEvent) (cs : List Change) (p : Path),
        windows_decode_event fs ev = Except.ok cs →
        Change.AppInstalled p ∈ cs →
        pathExt p = some "lnk" ∧ fs.metadataIsFile p = some true ∧
          (parse_lnk2 fs p).isSome = true)
    ∧ (∀ (fs : WinFs) (q : Path) (rest : List Path),
        fs.metadataIsFile q = some true →
        parse_lnk2 fs q = none →
        windows_decode_create fs (q :: rest) =
          windows_decode_create fs rest) := by
  refine ⟨?_, ?_, ?_, ?_⟩
  · intro fs st ev cs p h hm
    unfold linux_decode_event at h
    split at h
    · exact absurd h (by simp)
    · rename_i sp hlk
      split at h
      · split at h
        · exact absurd h (by simp)
        · rename_i f hf
          split at h
          · rename_i hext
            split at h
            · exact absurd h (by simp)
            · rename_i hisf
              split at h
              · exact absurd h (by simp)
              · rename_i content hread
                split at h
                · cases h
                  simp at hm
                · rename_i nm icon hparse
                  split at h
                  · cases h
                    simp at hm
                  · rename_i hnn
                    have hin := linux_after_create_install_mem sp ev
                      [Change.AppInstalled (sp ++ [f])] cs p h hm
                    have hp : p = sp ++ [f] := by
                      cases List.mem_singleton.mp hin
                      rfl
                    subst hp
                    rcases Option.ne_none_iff_exists.mp
                      (by simpa using hnn) with ⟨ic, hic⟩
                    exact ⟨hext, hisf, content, nm, ic, hread, by
                      rw [hparse, ← hic]⟩
            · rename_i hisf
              have hin := linux_after_create_install_mem sp ev [] cs p h hm
              simp at hin
          · have hin := linux_after_create_install_mem sp ev [] cs p h hm
            simp at hin
      · have hin := linux_after_create_install_mem sp ev [] cs p h hm
        simp at hin
  · intro fs st ev sp f content hlk hf hisf hread hno hD hMF
    by_cases hcr : (ev.maskCreate || ev.maskMovedTo) = true
    · cases hparse : parse_desktop_file_content fs.parse content with
      | none =>
        simp [linux_decode_event, hlk, hf, hcr, hisf, hread, hparse,
          linux_after_create, linux_delete_branch, hD, hMF]
      | some pr =>
        obtain ⟨nm, icon⟩ := pr
        cases icon with
        | none =>
          simp [linux_decode_event, hlk, hf, hcr, hisf, hread, hparse,
            linux_after_create, linux_delete_branch, hD, hMF]
        | some ic => exact absurd hparse (hno nm ic)
    · simp [linux_decode_event, hlk, hcr, linux_after_create,
        linux_delete_branch, hD, hMF]
  · intro fs ev cs p h hm
    unfold windows_decode_event at h
    cases hk : ev.kind with
    | createFile =>
      rw [hk] at h
      exact windows_decode_create_mem fs ev.paths cs p h hm
    | removeFile =>
      rw [hk] at h
      have h' : Except.ok (windows_decode_remove ev.paths) = Except.ok cs := h
      cases h'
      exact absurd hm (windows_decode_remove_no_install ev.paths p)
    | other =>
      rw [hk] at h
      have h' : Except.ok ([] : List Change) = Except.ok cs := h
      cases h'
      simp at hm
  · intro fs q rest hmeta hparse
    by_cases hext : pathExt q = some "lnk" <;>
      cases hrec : windows_decode_create fs rest <;>
        simp [windows_decode_create, hmeta, hparse, hrec, hext]

theorem installed_changes_validated_witness :
    (pathExt (["apps", "a.desktop"] : Path) = some "desktop" ∧
      sampleFs.isFile ["apps", "a.desktop"] = some true ∧
      ∃ content nm icon, sampleFs.read ["apps", "a.desktop"] = some content ∧
        parse_desktop_file_content sampleFs.parse content =
          some (nm, some icon))
    ∧ linux_decode_event sampleFsNoIcon sampleLinuxWatcher
        sampleInotifyCreate = RunResult.ok []
    ∧ (pathExt (["sm", "app.lnk"] : Path) = some "lnk" ∧
      sampleWinFs.metadataIsFile ["sm", "app.lnk"] = some true ∧
      (parse_lnk2 sampleWinFs ["sm", "app.lnk"]).isSome = true)
    ∧ windows_decode_create sampleWinFsBadLnk [["sm", "app.lnk"]] =
        windows_decode_create sampleWinFsBadLnk [] := by
  refine ⟨?_, ?_, ?_, ?_⟩
  · exact installed_changes_validated.1 sampleFs sampleLinuxWatcher
      sampleInotifyCreate [Change.AppInstalled ["apps", "a.desktop"]]
      ["apps", "a.desktop"] rfl (by decide)
  · exact installed_changes_validated.2.1 sampleFsNoIcon sampleLinuxWatcher
      sampleInotifyCreate ["apps"] "a.desktop" "content" rfl rfl rfl rfl
      (fun nm icon h => Option.noConfusion h) rfl rfl
  · exact installed_changes_validated.2.2.1 sampleWinFs
      ⟨WinEventKind.createFile, [["sm", "app.lnk"]]⟩
      [Change.AppInstalled ["sm", "app.lnk"]] ["sm", "app.lnk"] rfl
      (by decide)
  · exact installed_changes_validated.2.2.2 sampleWinFsBadLnk
      ["sm", "app.lnk"] [] rfl rfl

theorem count_del_filter (l : List Path) (q : Path → Bool) (p : Path)
    (hnd : l.Nodup) :
    ((l.filter q).map Change.AppDeleted).count (Change.AppDeleted p) =
      if p ∈ l ∧ q p = true then 1 else 0 := by
  rw [List.count_map_of_injective _ Change.AppDeleted
    (fun a b h => by injection h) p,
    List.count_eq_of_nodup (hnd.filter q)]
  by_cases hm : p ∈ l ∧ q p = true
  · rw [if_pos (List.mem_filter.mpr ⟨hm.1, hm.2⟩), if_pos hm]
  · rw [if_neg (fun hc => hm ⟨(List.mem_filter.mp hc).1,
      (List.mem_filter.mp hc).2⟩), if_neg hm]

theorem count_ins_filter (l : List Path) (q : Path → Bool) (p : Path)
    (hnd : l.Nodup) :
    ((l.filter q).map Change.AppInstalled).count (Change.AppInstalled p) =
      if p ∈ l ∧ q p = true then 1 else 0 := by
  rw [List.count_map_of_injective _ Change.AppInstalled
    (fun a b h => by injection h) p,
    List.count_eq_of_nodup (hnd.filter q)]
  by_cases hm : p ∈ l ∧ q p = true
  · rw [if_pos (List.mem_filter.mpr ⟨hm.1, hm.2⟩), if_pos hm]
  · rw [if_neg (fun hc => hm ⟨(List.mem_filter.mp hc).1,
      (List.mem_filter.mp hc).2⟩), if_neg hm]

theorem count_del_in_installs (l : List Path) (p : Path) :
    (l.map Change.AppInstalled).count (Change.AppDeleted p) = 0 :=
  List.count_eq_zero_of_not_mem (by
    intro hm
    rcases List.mem_map.mp hm with ⟨q, _, hq⟩
    cases hq)

theorem count_ins_in_deletes (l : List Path) (p : Path) :
    (l.map Change.AppDeleted).count (Change.AppInstalled p) = 0 :=
  List.count_eq_zero_of_not_mem (by
    intro hm
    rcases List.mem_map.mp hm with ⟨q, _, hq⟩
    cases hq)

theorem macos_process_write (st : MacWatcherState) (fd : Nat) (dir : Path)
    (prev : List Path) (entries : List DirEntry)
    (h1 : List.lookup fd st.search_paths = some dir)
    (h2 : List.lookup fd st.prev_app_list = some prev) :
    macos_process st [⟨fd, true, entries⟩] =
      some ((prev.filter fun p => decide (p ∉ get_current_apps entries)).map
          Change.AppDeleted
        ++ ((get_current_apps entries).filter fun p => decide (p ∉ prev)).map
          Change.AppInstalled,
        { st with prev_app_list :=
            setPrev st.prev_app_list fd (get_current_apps entries) }) := by
  simp [macos_process, h1, h2]

theorem lookup_setPrev (l : List (Nat × List Path)) (fd : Nat)
    (v : List Path) :
    ∀ w, List.lookup fd l = some w →
      List.lookup fd (setPrev l fd v) = some v := by
  induction l with
  | nil =>
    intro w h
    cases h
  | cons e rest ih =>
    obtain ⟨k, b⟩ := e
    intro w h
    by_cases hk : k = fd
    · subst hk
      show List.lookup k ((if k = k then (k, v) else (k, b)) :: setPrev rest k v)
        = some v
      rw [if_pos rfl]
      simp [List.lookup]
    · have hbeq : (fd == k) = false := by
        simp [Ne.symm hk]
      simp only [List.lookup, hbeq] at h
      simp only [setPrev]
      rw [if_neg hk]
      simp only [List.lookup, hbeq]
      exact ih w h

theorem get_current_apps_perm_mem (entries entries' : List DirEntry)
    (p : Path) (hperm : entries.Perm entries') :
    p ∈ get_current_apps entries ↔ p ∈ get_current_apps entries' := by
  unfold get_current_apps
  rw [List.mem_dedup, List.mem_dedup]
  exact (hperm.filterMap _).mem_iff

theorem nodup_get_current_apps (entries : List DirEntry) :
    (get_current_apps entries).Nodup :=
  List.nodup_dedup _

/-- C3: one directory-changed notification makes the snapshot-diff watcher
re-list the directory's immediate bundle entries and diff them against the
stored snapshot: a path yields exactly one `AppDeleted` iff it was in the
old snapshot and not in the new listing, exactly one `AppInstalled` iff
vice versa (no duplicates, and the counts are unchanged under any
permutation of the listing); afterwards the stored snapshot equals the new
listing. -/
theorem snapshot_diff_recv (st : MacWatcherState) (fd : Nat) (dir : Path)
    (prev : List Path) (entries entries' : List DirEntry) (p : Path)
    (h1 : List.lookup fd st.search_paths = some dir)
    (h2 : List.lookup fd st.prev_app_list = some prev)
    (hnd : prev.Nodup)
    (hperm : entries.Perm entries') :
    (macos_recv st [⟨fd, true, entries⟩]).isSome = true
    ∧ (∀ changes st',
        macos_recv st [⟨fd, true, entries⟩] = some (changes, st') →
        changes.count (Change.AppDeleted p) =
          (if p ∈ prev ∧ p ∉ get_current_apps entries then 1 else 0)
        ∧ changes.count (Change.AppInstalled p) =
          (if p ∈ get_current_apps entries ∧ p ∉ prev then 1 else 0)
        ∧ List.lookup fd st'.prev_app_list =
          some (get_current_apps entries))
    ∧ (∀ changes' st'',
        macos_recv st [⟨fd, true, entries'⟩] = some (changes', st'') →
        changes'.count (Change.AppDeleted p) =
          (if p ∈ prev ∧ p ∉ get_current_apps entries then 1 else 0)
        ∧ changes'.count (Change.AppInstalled p) =
          (if p ∈ get_current_apps entries ∧ p ∉ prev then 1 else 0)) := by
  have hne : st.search_paths.isEmpty = false := by
    cases hsp : st.search_paths with
    | nil =>
      rw [hsp] at h1
      cases h1
    | cons e rest => rfl
  have hrecv : ∀ es : List DirEntry,
      macos_recv st [⟨fd, true, es⟩] = macos_process st [⟨fd, true, es⟩] := by
    intro es
    unfold macos_recv
    rw [hne]
    simp
  have hcounts : ∀ es : List DirEntry,
      ((prev.filter fun q => decide (q ∉ get_current_apps es)).map
          Change.AppDeleted
        ++ ((get_current_apps es).filter fun q => decide (q ∉ prev)).map
          Change.AppInstalled).count (Change.AppDeleted p) =
        (if p ∈ prev ∧ p ∉ get_current_apps es then 1 else 0)
      ∧ ((prev.filter fun q => decide (q ∉ get_current_apps es)).map
          Change.AppDeleted
        ++ ((get_current_apps es).filter fun q => decide (q ∉ prev)).map
          Change.AppInstalled).count (Change.AppInstalled p) =
        (if p ∈ get_current_apps es ∧ p ∉ prev then 1 else 0) := by
    intro es
    constructor
    · rw [List.count_append, count_del_in_installs,
        count_del_filter prev _ p hnd]
      simp
    · rw [List.count_append, count_ins_in_deletes,
        count_ins_filter _ _ p (nodup_get_current_apps es)]
      simp
  refine ⟨?_, ?_, ?_⟩
  · rw [hrecv entries, macos_process_write st fd dir prev entries h1 h2]
    rfl
  · intro changes st' h
    rw [hrecv entries, macos_process_write st fd dir prev entries h1 h2] at h
    cases h
    refine ⟨(hcounts entries).1, (hcounts entries).2, ?_⟩
    exact lookup_setPrev st.prev_app_list fd (get_current_apps entries)
      prev h2
  · intro changes' st'' h
    rw [hrecv entries', macos_process_write st fd dir prev entries' h1 h2] at h
    cases h
    have hmem := get_current_apps_perm_mem entries entries' p hperm
    constructor
    · rw [(hcounts entries').1]
      by_cases hp : p ∈ prev ∧ p ∉ get_current_apps entries
      · rw [if_pos hp, if_pos ⟨hp.1, fun hc => hp.2 (hmem.mpr hc)⟩]
      · rw [if_neg hp, if_neg (fun hc => hp ⟨hc.1, fun hd => hc.2 (hmem.mp hd)⟩)]
    · rw [(hcounts entries').2]
      by_cases hp : p ∈ get_current_apps entries ∧ p ∉ prev
      · rw [if_pos hp, if_pos ⟨hmem.mp hp.1, hp.2⟩]
      · rw [if_neg hp, if_neg (fun hc => hp ⟨hmem.mpr hc.1, hc.2⟩)]

theorem snapshot_diff_recv_witness :
    (macos_recv sampleMacState [⟨1, true, sampleDirEntries⟩]).isSome = true
    ∧ (∀ changes st',
        macos_recv sampleMacState [⟨1, true, sampleDirEntries⟩] =
          some (changes, st') →
        changes.count (Change.AppDeleted ["Apps", "Old.app"]) =
          (if ["Apps", "Old.app"] ∈ [(["Apps", "Old.app"] : Path)] ∧
            ["Apps", "Old.app"] ∉ get_current_apps sampleDirEntries
            then 1 else 0)
        ∧ changes.count (Change.AppInstalled ["Apps", "Old.app"]) =
          (if ["Apps", "Old.app"] ∈ get_current_apps sampleDirEntries ∧
            ["Apps", "Old.app"] ∉ [(["Apps", "Old.app"] : Path)]
            then 1 else 0)
        ∧ List.lookup 1 st'.prev_app_list =
          some (get_current_apps sampleDirEntries))
    ∧ (∀ changes' st'',
        macos_recv sampleMacState [⟨1, true, sampleDirEntries⟩] =
          some (changes', st'') →
        changes'.count (Change.AppDeleted ["Apps", "Old.app"]) =
          (if ["Apps", "Old.app"] ∈ [(["Apps", "Old.app"] : Path)] ∧
            ["Apps", "Old.app"] ∉ get_current_apps sampleDirEntries
            then 1 else 0)
        ∧ changes'.count (Change.AppInstalled ["Apps", "Old.app"]) =
          (if ["Apps", "Old.app"] ∈ get_current_apps sampleDirEntries ∧
            ["Apps", "Old.app"] ∉ [(["Apps", "Old.app"] : Path)]
            then 1 else 0)) :=
  snapshot_diff_recv sampleMacState 1 ["Apps"] [["Apps", "Old.app"]]
    sampleDirEntries sampleDirEntries ["Apps", "Old.app"] rfl rfl
    (by decide) (List.Perm.refl _)

theorem merge_by_exe_inv :
    ∀ (l : List App) (seen : List Path),
      (∀ a ∈ merge_by_exe seen l, ∃ p, a.app_path_exe = some p ∧ p ∉ seen)
      ∧ List.Pairwise (fun x y => x.app_path_exe ≠ y.app_path_exe)
          (merge_by_exe seen l) := by
  intro l
  induction l with
  | nil =>
    intro seen
    simp [merge_by_exe]
  | cons c rest ih =>
    intro seen
    cases hexe : c.app_path_exe with
    | none =>
      rw [show merge_by_exe seen (c :: rest) = merge_by_exe seen rest from by
        simp [merge_by_exe, hexe]]
      exact ih seen
    | some p =>
      by_cases hp : p ∈ seen
      · rw [show merge_by_exe seen (c :: rest) = merge_by_exe seen rest from by
          simp [merge_by_exe, hexe, hp]]
        exact ih seen
      · rw [show merge_by_exe seen (c :: rest) =
            c :: merge_by_exe (p :: seen) rest from by
          simp [merge_by_exe, hexe, hp]]
        obtain ⟨ihm, ihp⟩ := ih (p :: seen)
        constructor
        · intro a ha
          rcases List.mem_cons.mp ha with rfl | ha'
          · exact ⟨p, hexe, hp⟩
          · obtain ⟨q, hq, hqn⟩ := ihm a ha'
            exact ⟨q, hq, fun hs => hqn (List.mem_cons_of_mem _ hs)⟩
        · refine List.Pairwise.cons ?_ ihp
          intro b hb
          obtain ⟨q, hq, hqn⟩ := ihm b hb
          rw [hexe, hq]
          intro hc
          injection hc with hpq
          refine hqn ?_
          rw [← hpq]
          exact List.mem_cons_self _ _

theorem mem_merge_by_exe_iff :
    ∀ (l : List App) (seen : List Path) (a : App),
      a ∈ merge_by_exe seen l ↔ firstOccFrom seen l a := by
  intro l
  induction l with
  | nil =>
    intro seen a
    constructor
    · intro h
      simp [merge_by_exe] at h
    · rintro ⟨pre, post, heq, _, _⟩
      exact absurd heq (by simp)
  | cons c rest ih =>
    intro seen a
    cases hexe : c.app_path_exe with
    | none =>
      rw [show merge_by_exe seen (c :: rest) = merge_by_exe seen rest from by
        simp [merge_by_exe, hexe]]
      rw [ih seen a]
      constructor
      · rintro ⟨pre, post, heq, hex, hpre⟩
        refine ⟨c :: pre, post, by rw [heq]; rfl, hex, ?_⟩
        intro b hb
        rcases List.mem_cons.mp hb with rfl | hb'
        · rcases hex with ⟨q, hq, _⟩
          rw [hexe, hq]
          exact fun hc => Option.noConfusion hc
        · exact hpre b hb'
      · rintro ⟨pre, post, heq, hex, hpre⟩
        cases pre with
        | nil =>
          rw [List.nil_append] at heq
          injection heq with h1 h2
          rcases hex with ⟨q, hq, _⟩
          rw [h1, hq] at hexe
          cases hexe
        | cons c' pre' =>
          injection heq with h1 h2
          exact ⟨pre', post, h2, hex,
            fun b hb => hpre b (List.mem_cons_of_mem _ hb)⟩
    | some p =>
      by_cases hp : p ∈ seen
      · rw [show merge_by_exe seen (c :: rest) = merge_by_exe seen rest from by
          simp [merge_by_exe, hexe, hp]]
        rw [ih seen a]
        constructor
        · rintro ⟨pre, post, heq, hex, hpre⟩
          refine ⟨c :: pre, post, by rw [heq]; rfl, hex, ?_⟩
          intro b hb
          rcases List.mem_cons.mp hb with rfl | hb'
          · rcases hex with ⟨q, hq, hqn⟩
            rw [hexe, hq]
            intro hc
            injection hc with hpq
            rw [hpq] at hp
            exact hqn hp
          · exact hpre b hb'
        · rintro ⟨pre, post, heq, hex, hpre⟩
          cases pre with
          | nil =>
            rw [List.nil_append] at heq
            injection heq with h1 h2
            rcases hex with ⟨q, hq, hqn⟩
            rw [h1, hq] at hexe
            injection hexe with hqp
            exact absurd hp (hqp ▸ hqn)
          | cons c' pre' =>
            injection heq with h1 h2
            exact ⟨pre', post, h2, hex,
              fun b hb => hpre b (List.mem_cons_of_mem _ hb)⟩
      · rw [show merge_by_exe seen (c :: rest) =
            c :: merge_by_exe (p :: seen) rest from by
          simp [merge_by_exe, hexe, hp]]
        rw [List.mem_cons, ih (p :: seen) a]
        constructor
        · rintro (rfl | ⟨pre, post, heq, hex, hpre⟩)
          · exact ⟨[], rest, rfl, ⟨p, hexe, hp⟩, by simp⟩
          · rcases hex with ⟨q, hq, hqn⟩
            refine ⟨c :: pre, post, by rw [heq]; rfl,
              ⟨q, hq, fun hs => hqn (List.mem_cons_of_mem _ hs)⟩, ?_⟩
            intro b hb
            rcases List.mem_cons.mp hb with rfl | hb'
            · rw [hexe, hq]
              intro hc
              injection hc with hpq
              refine hqn ?_
              rw [← hpq]
              exact List.mem_cons_self _ _
            · exact hpre b hb'
        · rintro ⟨pre, post, heq, hex, hpre⟩
          cases pre with
          | nil =>
            rw [List.nil_append] at heq
            injection heq with h1 h2
            exact Or.inl h1.symm
          | cons c' pre' =>
            injection heq with h1 h2
            subst h1
            rcases hex with ⟨q, hq, hqn⟩
            have hqp : q ≠ p := by
              intro hqp
              have hcp := hpre c (List.mem_cons_self c pre')
              rw [hexe, hq, hqp] at hcp
              exact hcp rfl
            refine Or.inr ⟨pre', post, h2, ⟨q, hq, ?_⟩,
              fun b hb => hpre b (List.mem_cons_of_mem _ hb)⟩
            intro hs
            rcases List.mem_cons.mp hs with h | h
            · exact hqp h
            · exact hqn h

theorem byNameLeB_trans : ∀ (a b c : App),
    byNameLeB a b → byNameLeB b c → byNameLeB a c := by
  intro a b c hab hbc
  exact decide_eq_true
    (le_trans (of_decide_eq_true hab) (of_decide_eq_true hbc))

theorem byNameLeB_total : ∀ (a b : App), byNameLeB a b || byNameLeB b a := by
  intro a b
  rcases le_total (lowerStr a.name) (lowerStr b.name) with h | h <;>
    simp [byNameLeB, h]

theorem exe_ne_symm :
    ∀ {x y : App}, x.app_path_exe ≠ y.app_path_exe →
      y.app_path_exe ≠ x.app_path_exe :=
  fun h hc => h hc.symm

/-- C4 amended: the four sources are merged in order with de-duplication
keyed by resolved executable path, first occurrence in the whole merge
order winning: an app appears in the output iff it has a resolved
executable path and occurs in the concatenated source list at a position
no earlier element of which (from an earlier source or earlier in the same
source) already carries the same executable path; and the output is
sorted case-insensitively by display name. -/
theorem windows_merge_first_wins (fs : WinFs)
    (walkEntries : List (Option WinWalkEntry))
    (registry pathEnv uwp : Except Unit (List App)) (a : App) :
    (a ∈ windows_get_all_apps fs walkEntries registry pathEnv uwp ↔
      firstOccFrom []
        (lnk_walk_apps fs walkEntries ++ exceptApps registry
          ++ exceptApps pathEnv ++ exceptApps uwp) a)
    ∧ List.Pairwise (fun x y => byNameLeB x y = true)
        (windows_get_all_apps fs walkEntries registry pathEnv uwp) := by
  constructor
  · rw [windows_get_all_apps, List.mem_mergeSort]
    exact mem_merge_by_exe_iff _ [] a
  · rw [windows_get_all_apps]
    exact List.sorted_mergeSort byNameLeB_trans byNameLeB_total _

/-- C4 counterexample: with empty earlier sources, the second of two apps
of the PATH source sharing one executable path does not appear in the
output, although its executable path was not produced by any earlier
source. -/
theorem later_source_duplicate_dropped :
    appB ∉ windows_get_all_apps sampleWinFs [] (Except.ok [])
      (Except.ok [appA, appB]) (Except.ok [])
    ∧ lnk_walk_apps sampleWinFs [] = []
    ∧ exceptApps (Except.ok []) = ([] : List App)
    ∧ appA.app_path_exe = appB.app_path_exe
    ∧ appA ≠ appB := by
  refine ⟨?_, rfl, rfl, rfl, by decide⟩
  rw [windows_get_all_apps, List.mem_mergeSort]
  decide

theorem get_uwp_apps_exe_none (fs : WinFs) (records : List UwpRecord) :
    ∀ a ∈ get_uwp_apps fs records, a.app_path_exe = none := by
  intro a ha
  rcases List.mem_filterMap.mp ha with ⟨r, _, hr⟩
  cases hn : r.name with
  | none =>
    rw [hn] at hr
    exact Option.noConfusion hr
  | some n =>
    cases hid : r.appUserModelId with
    | none =>
      rw [hn, hid] at hr
      exact Option.noConfusion hr
    | some i =>
      rw [hn, hid] at hr
      injection hr with hra
      rw [← hra]

/-- C10: every App in the shortcut-platform `get_all_apps` output has a
resolved executable path, those paths are pairwise distinct, and the
store-package (UWP) apps — always built with `app_path_exe = None` — never
appear in the merged output. -/
theorem windows_output_exe_invariant (fs : WinFs)
    (walkEntries : List (Option WinWalkEntry))
    (registry pathEnv : Except Unit (List App)) (records : List UwpRecord) :
    (∀ a ∈ windows_get_all_apps fs walkEntries registry pathEnv
        (Except.ok (get_uwp_apps fs records)), a.app_path_exe.isSome = true)
    ∧ List.Pairwise (fun x y => x.app_path_exe ≠ y.app_path_exe)
        (windows_get_all_apps fs walkEntries registry pathEnv
          (Except.ok (get_uwp_apps fs records)))
    ∧ ∀ a ∈ get_uwp_apps fs records,
        a ∉ windows_get_all_apps fs walkEntries registry pathEnv
          (Except.ok (get_uwp_apps fs records)) := by
  have hmem : ∀ a, a ∈ windows_get_all_apps fs walkEntries registry pathEnv
      (Except.ok (get_uwp_apps fs records)) →
      ∃ p, a.app_path_exe = some p := by
    intro a ha
    rw [windows_get_all_apps, List.mem_mergeSort] at ha
    obtain ⟨p, hp, _⟩ := (merge_by_exe_inv _ []).1 a ha
    exact ⟨p, hp⟩
  refine ⟨?_, ?_, ?_⟩
  · intro a ha
    obtain ⟨p, hp⟩ := hmem a ha
    rw [hp]
    rfl
  · rw [windows_get_all_apps]
    refine (List.Perm.pairwise_iff exe_ne_symm
      (List.mergeSort_perm _ byNameLeB)).mpr ?_
    exact (merge_by_exe_inv _ []).2
  · intro a ha hmem'
    obtain ⟨p, hp⟩ := hmem a hmem'
    rw [get_uwp_apps_exe_none fs records a ha] at hp
    cases hp

theorem windows_output_exe_invariant_witness :
    (∀ a ∈ windows_get_all_apps sampleWinFs [] (Except.ok [])
        (Except.ok [appA])
        (Except.ok (get_uwp_apps sampleWinFs [sampleUwpRecord])),
      a.app_path_exe.isSome = true)
    ∧ List.Pairwise (fun x y => x.app_path_exe ≠ y.app_path_exe)
        (windows_get_all_apps sampleWinFs [] (Except.ok [])
          (Except.ok [appA])
          (Except.ok (get_uwp_apps sampleWinFs [sampleUwpRecord])))
    ∧ ∀ a ∈ get_uwp_apps sampleWinFs [sampleUwpRecord],
        a ∉ windows_get_all_apps sampleWinFs [] (Except.ok [])
          (Except.ok [appA])
          (Except.ok (get_uwp_apps sampleWinFs [sampleUwpRecord])) :=
  windows_output_exe_invariant sampleWinFs [] (Except.ok [])
    (Except.ok [appA]) [sampleUwpRecord]

theorem linuxEntryStep_fail (fs : LinuxFs) (e : WalkEntry)
    (h : linuxEntryStep fs e = EntryStep.fail) :
    pathExt e.path = some "desktop" ∧ e.isFile = true ∧
      fs.read e.path = none := by
  unfold linuxEntryStep at h
  split at h
  · exact absurd h (by simp)
  · rename_i ext hext
    split at h
    · rename_i hc
      split at h
      · rename_i hread
        refine ⟨?_, hc.2, hread⟩
        rw [hext, hc.1]
      · split at h
        · exact absurd h (by simp)
        · exact absurd h (by simp)
    · exact absurd h (by simp)

theorem linuxEntryStep_skip_of_parse_failure (fs : LinuxFs) (e : WalkEntry)
    (content : String) (hread : fs.read e.path = some content)
    (hparse : parse_desktop_file_content fs.parse content = none) :
    linuxEntryStep fs e = EntryStep.skip := by
  cases hext : pathExt e.path with
  | none => simp [linuxEntryStep, hext]
  | some ext =>
    by_cases hc : ext = "desktop" ∧ e.isFile = true
    · simp [linuxEntryStep, hext, hc.1, hc.2, hread, hparse]
    · simp [linuxEntryStep, hext, hc]

theorem linuxGo_total (fs : LinuxFs) :
    ∀ (entries : List (Option WalkEntry)) (acc : List App),
      (∀ oe ∈ entries, ∀ e : WalkEntry, oe = some e →
        pathExt e.path = some "desktop" → e.isFile = true →
        (fs.read e.path).isSome = true) →
      ∃ apps, linuxGetAllAppsGo fs entries acc = Except.ok apps := by
  intro entries
  induction entries with
  | nil =>
    intro acc _
    exact ⟨acc, rfl⟩
  | cons oe rest ih =>
    intro acc hreads
    have hrest : ∀ oe ∈ rest, ∀ e : WalkEntry, oe = some e →
        pathExt e.path = some "desktop" → e.isFile = true →
        (fs.read e.path).isSome = true :=
      fun o ho => hreads o (List.mem_cons_of_mem _ ho)
    cases oe with
    | none =>
      simp only [linuxGetAllAppsGo]
      exact ih acc hrest
    | some e =>
      simp only [linuxGetAllAppsGo]
      cases hstep : linuxEntryStep fs e with
      | fail =>
        obtain ⟨hext, hisf, hread⟩ := linuxEntryStep_fail fs e hstep
        have := hreads (some e) (List.mem_cons_self _ _) e rfl hext hisf
        rw [hread] at this
        cases this
      | skip => exact ih acc hrest
      | add app => exact ih _ hrest

/-- C5 counterexample: a single matched descriptor whose content read
fails makes the whole desktop-entry enumeration return an error, although
the walk of the search roots produced the entry without error. -/
theorem enumerate_error_on_entry_read :
    linux_get_all_apps badReadFs [some ⟨["apps", "a.desktop"], true⟩] =
      Except.error () := rfl

/-- C5 amended: a per-entry parse failure or malformed descriptor is
silently skipped and never aborts the enumeration (if every matched
descriptor's content is readable, the desktop-entry enumeration
succeeds); however an I/O failure reading one matched descriptor's
content aborts the desktop-entry enumeration with an error (see the
counterexample), and the shortcut-platform enumeration absorbs a failing
source entirely, reporting no error. -/
theorem enumerate_per_entry_behaviour :
    (∀ (fs : LinuxFs) (entries : List (Option WalkEntry)),
      (∀ oe ∈ entries, ∀ e : WalkEntry, oe = some e →
        pathExt e.path = some "desktop" → e.isFile = true →
        (fs.read e.path).isSome = true) →
      ∃ apps, linux_get_all_apps fs entries = Except.ok apps)
    ∧ (∀ (fs : LinuxFs) (e : WalkEntry) (rest : List (Option WalkEntry))
        (acc : List App) (content : String),
        fs.read e.path = some content →
        parse_desktop_file_content fs.parse content = none →
        linuxGetAllAppsGo fs (some e :: rest) acc =
          linuxGetAllAppsGo fs rest acc)
    ∧ (∀ (fs : WinFs) (walkEntries : List (Option WinWalkEntry))
        (pathEnv uwp : Except Unit (List App)),
        windows_get_all_apps fs walkEntries (Except.error ()) pathEnv uwp =
          windows_get_all_apps fs walkEntries (Except.ok []) pathEnv uwp) := by
  refine ⟨?_, ?_, ?_⟩
  · intro fs entries h
    exact linuxGo_total fs entries [] h
  · intro fs e rest acc content hread hparse
    simp only [linuxGetAllAppsGo,
      linuxEntryStep_skip_of_parse_failure fs e content hread hparse]
  · intro fs walkEntries pathEnv uwp
    rfl

theorem enumerate_per_entry_behaviour_witness :
    (∃ apps, linux_get_all_apps sampleFs
      [some ⟨["apps", "a.desktop"], true⟩] = Except.ok apps)
    ∧ linuxGetAllAppsGo sampleFsNoIcon
        [some ⟨["apps", "a.desktop"], true⟩] [] =
      linuxGetAllAppsGo sampleFsNoIcon [] []
    ∧ windows_get_all_apps sampleWinFs [] (Except.error ())
        (Except.ok [appA]) (Except.ok []) =
      windows_get_all_apps sampleWinFs [] (Except.ok [])
        (Except.ok [appA]) (Except.ok []) :=
  ⟨enumerate_per_entry_behaviour.1 sampleFs
    [some ⟨["apps", "a.desktop"], true⟩] (fun _ _ _ _ _ _ => rfl),
   enumerate_per_entry_behaviour.2.1 sampleFsNoIcon
    ⟨["apps", "a.desktop"], true⟩ [] [] "content" rfl rfl,
   enumerate_per_entry_behaviour.2.2 sampleWinFs [] (Except.ok [appA])
    (Except.ok [])⟩

/-- C6 counterexample: with two raw notify events already delivered, one
shortcut-platform `recv` call decodes only the first and leaves the
second pending, undecoded, for a later call. -/
theorem windows_recv_leaves_pending :
    windows_recv sampleWinFs [evOther, evOther] =
      some (Except.ok [], [evOther])
    ∧ ([evOther] : List WinEvent) ≠ [] :=
  ⟨rfl, by decide⟩

/-- C6 amended: the desktop-entry watcher decodes every raw event of the
batch one blocking read delivers (decoding distributes over batch
concatenation); the shortcut watcher blocks when nothing is pending but
each call dequeues and decodes exactly one raw event, leaving the rest
pending; the snapshot-diff watcher with an empty watched set returns an
empty batch without consuming any event. -/
theorem recv_batch_decoding :
    (∀ (fs : LinuxFs) (st : LinuxWatcherState)
       (evs1 evs2 : List InotifyEvent),
      linux_recv fs st (evs1 ++ evs2) =
        runAppend (linux_recv fs st evs1) (linux_recv fs st evs2))
    ∧ (∀ (fs : WinFs) (ev : WinEvent) (rest : List WinEvent),
      windows_recv fs (ev :: rest) = some (windows_decode_event fs ev, rest))
    ∧ (∀ fs : WinFs, windows_recv fs [] = none)
    ∧ (∀ (prevs : List (Nat × List Path)) (kevents : List MacKEvent),
      macos_recv ⟨[], prevs⟩ kevents = some ([], ⟨[], prevs⟩)) := by
  refine ⟨?_, fun fs ev rest => rfl, fun fs => rfl, fun prevs kevents => rfl⟩
  intro fs st evs1 evs2
  induction evs1 with
  | nil =>
    cases h2 : linux_recv fs st evs2 <;>
      simp [linux_recv, runAppend, h2]
  | cons ev rest ih =>
    simp only [List.cons_append, linux_recv, List.append_eq]
    rw [ih]
    cases hd : linux_decode_event fs st ev <;>
      cases hr : linux_recv fs st rest <;>
        cases h2 : linux_recv fs st evs2 <;>
          simp [runAppend, List.append_assoc]

/-- C7 counterexample: on the shortcut platform, unwatching a path that
was never watched returns a recoverable error (notify's `WatchNotFound`
propagated with `?`), it does not abort the process. -/
theorem windows_unwatch_no_panic :
    windows_unwatch [] ["sm"] = RunResult.error
    ∧ RunResult.error ≠ (RunResult.panicked : RunResult (List Path)) :=
  ⟨rfl, by decide⟩

/-- C7 amended: unwatching a path not currently watched panics on the
inotify and kqueue watchers but returns an error on the notify-based
shortcut watcher; unwatching a currently watched path removes its
handle-to-path mapping (and, on the kqueue watcher, its snapshot) and
returns success on all three. -/
theorem unwatch_behaviour :
    (∀ (st : LinuxWatcherState) (p : Path), p ∉ watchedPathsL st →
      linux_unwatch st p = RunResult.panicked)
    ∧ (∀ (st : MacWatcherState) (p : Path),
      p ∉ st.search_paths.map Prod.snd →
      macos_unwatch st p = RunResult.panicked)
    ∧ (∀ (watched : List Path) (p : Path), p ∉ watched →
      windows_unwatch watched p = RunResult.error)
    ∧ (∀ (st : LinuxWatcherState) (p : Path) (wd : Nat) (q : Path),
      st.search_paths.find? (fun e => decide (e.2 = p)) = some (wd, q) →
      ∃ st', linux_unwatch st p = RunResult.ok st'
        ∧ (∀ r : Path, (wd, r) ∉ st'.search_paths)
        ∧ ∀ x ∈ st.search_paths, x.1 ≠ wd → x ∈ st'.search_paths)
    ∧ (∀ (st : MacWatcherState) (p : Path) (wd : Nat) (q : Path)
        (pl : List Path),
      st.search_paths.find? (fun e => decide (e.2 = p)) = some (wd, q) →
      List.lookup wd st.prev_app_list = some pl →
      ∃ st', macos_unwatch st p = RunResult.ok st'
        ∧ (∀ r : Path, (wd, r) ∉ st'.search_paths)
        ∧ ∀ r : List Path, (wd, r) ∉ st'.prev_app_list)
    ∧ (∀ (watched : List Path) (p : Path), p ∈ watched →
      windows_unwatch watched p = RunResult.ok (watched.erase p)) := by
  refine ⟨?_, ?_, ?_, ?_, ?_, ?_⟩
  · intro st p hmem
    have hfind : st.search_paths.find? (fun e => decide (e.2 = p)) = none := by
      rw [List.find?_eq_none]
      intro x hx
      simp only [decide_eq_true_eq]
      intro hxp
      exact hmem (List.mem_map.mpr ⟨x, hx, hxp⟩)
    unfold linux_unwatch
    rw [hfind]
  · intro st p hmem
    have hfind : st.search_paths.find? (fun e => decide (e.2 = p)) = none := by
      rw [List.find?_eq_none]
      intro x hx
      simp only [decide_eq_true_eq]
      intro hxp
      exact hmem (List.mem_map.mpr ⟨x, hx, hxp⟩)
    unfold macos_unwatch
    rw [hfind]
  · intro watched p hmem
    unfold windows_unwatch notify_unwatch
    rw [if_neg hmem]
  · intro st p wd q hfind
    refine ⟨⟨st.search_paths.filter fun e => ! decide (e.1 = wd)⟩, ?_, ?_, ?_⟩
    · unfold linux_unwatch
      rw [hfind]
    · intro r hmem
      have := (List.mem_filter.mp hmem).2
      simp at this
    · intro x hx hxwd
      exact List.mem_filter.mpr ⟨hx, by simp [hxwd]⟩
  · intro st p wd q pl hfind hprev
    refine ⟨{ search_paths := st.search_paths.filter fun e => ! decide (e.1 = wd)
              prev_app_list :=
                st.prev_app_list.filter fun e => ! decide (e.1 = wd) },
      ?_, ?_, ?_⟩
    · simp only [macos_unwatch, hfind, hprev]
    · intro r hmem
      have := (List.mem_filter.mp hmem).2
      simp at this
    · intro r hmem
      have := (List.mem_filter.mp hmem).2
      simp at this
  · intro watched p hmem
    unfold windows_unwatch notify_unwatch
    rw [if_pos hmem]

theorem unwatch_behaviour_witness :
    linux_unwatch sampleLinuxWatcher ["other"] = RunResult.panicked
    ∧ macos_unwatch sampleMacState ["other"] = RunResult.panicked
    ∧ windows_unwatch [] ["other"] = RunResult.error
    ∧ (∃ st', linux_unwatch sampleLinuxWatcher ["apps"] = RunResult.ok st'
        ∧ (∀ r : Path, (1, r) ∉ st'.search_paths)
        ∧ ∀ x ∈ sampleLinuxWatcher.search_paths, x.1 ≠ 1 →
            x ∈ st'.search_paths)
    ∧ (∃ st', macos_unwatch sampleMacState ["Apps"] = RunResult.ok st'
        ∧ (∀ r : Path, (1, r) ∉ st'.search_paths)
        ∧ ∀ r : List Path, (1, r) ∉ st'.prev_app_list)
    ∧ windows_unwatch [["a"]] ["a"] = RunResult.ok ([["a"]].erase ["a"]) :=
  ⟨unwatch_behaviour.1 sampleLinuxWatcher ["other"] (by decide),
   unwatch_behaviour.2.1 sampleMacState ["other"] (by decide),
   unwatch_behaviour.2.2.1 [] ["other"] (by decide),
   unwatch_behaviour.2.2.2.1 sampleLinuxWatcher ["apps"] 1 ["apps"] rfl,
   unwatch_behaviour.2.2.2.2.1 sampleMacState ["Apps"] 1 ["Apps"]
     [["Apps", "Old.app"]] rfl rfl,
   unwatch_behaviour.2.2.2.2.2 [["a"]] ["a"] (by decide)⟩

/-- C8: the bundle platform's App name is chosen with the fixed priority:
the manifest's embedded display name when present, otherwise the
manifest's embedded short name when present, otherwise the file stem of
the bundle directory path. -/
theorem mac_name_priority (fs : MacFs) (p : Path) (pl : Path)
    (info : InfoPlist) (app : App)
    (h1 : get_info_plist_path fs p = some pl)
    (h2 : fs.plistParse pl = some info)
    (h3 : to_app fs p = some app) :
    some app.name = spec_mac_name info (pathStem p) := by
  unfold to_app at h3
  split at h3
  · exact absurd h3 (by simp)
  · simp only [h1, h2] at h3
    cases hdn : info.cf_bundle_display_name with
    | some d =>
      simp only [hdn] at h3
      split at h3
      · exact absurd h3 (by simp)
      · injection h3 with happ
        rw [← happ]
        simp [spec_mac_name, hdn]
    | none =>
      simp only [hdn] at h3
      cases hbn : info.cf_bundle_name with
      | some n =>
        simp only [hbn] at h3
        split at h3
        · exact absurd h3 (by simp)
        · injection h3 with happ
          rw [← happ]
          simp [spec_mac_name, hdn, hbn]
      | none =>
        simp only [hbn] at h3
        cases hst : pathStem p with
        | none =>
          rw [hst] at h3
          exact absurd h3 (by simp)
        | some s =>
          simp only [hst] at h3
          split at h3
          · exact absurd h3 (by simp)
          · injection h3 with happ
            rw [← happ]
            simp [spec_mac_name, hdn, hbn, hst]

theorem mac_name_priority_witness :
    some ((App.name
      { name := "Display", localized_app_names := [], icon_path := none,
        app_path_exe := none,
        app_desktop_path := ["Apps", "Finder.app"] })) =
      spec_mac_name sampleInfoPlist (pathStem ["Apps", "Finder.app"]) :=
  mac_name_priority sampleMacFs ["Apps", "Finder.app"]
    ["Apps", "Finder.app", "Contents", "Info.plist"] sampleInfoPlist
    { name := "Display", localized_app_names := [], icon_path := none,
      app_path_exe := none, app_desktop_path := ["Apps", "Finder.app"] }
    rfl rfl rfl

end AppsRs
